import Mathlib

/-!
Shallow embedding of the network-parameterized Bitcoin address codec and the
typed-digest layer of the `spinner-cash/bitcoins-rs` repository.

Embedded from the source:
- `archive/bitcoins/src/enc/encoder.rs`: the `Address` enum, the `NetworkParams`
  parameter sets `Main`/`Test`/`Sig`, and the `BitcoinEncoder` operations
  `encode_address`, `decode_address`, `string_to_address`.
- `core/src/hashes/mod.rs`: the marked-digest layer (`MarkedDigestOutput`), in
  particular `reversed`, `from_be_hex`, `to_be_hex`, and the double-SHA256
  digest used for base58check checksums.

Bytes are modelled as `Nat` with explicit `< 256` bounds or `% 256` reductions;
`u32` arithmetic in SHA-256 is `Nat` reduced `% 2^32`.  Rust `Result` is
`Except`; a Rust panic (`unwrap` of an `Err`) is modelled as `Option.none`.

Parts of the repository that the encoder calls but that are not present under
the exported sources (the base58/bech32 codec internals in `enc/bases.rs`, the
script classifier `ScriptPubkey::standard_type`, the `ByteFormat` hex
serializer, and the external `sha2` digest crate) are modelled from the
specification, as marked on each such definition.
-/

namespace Bitcoins

/-! ### SHA-256 (checksum primitive)

Modelled from the spec: the `Hash256` type in `core/src/hashes/mod.rs` is
"Bitcoin style double-sha256", delegating the compression to the external
`sha2` crate; the underlying FIPS 180-4 SHA-256 algorithm is reproduced here
on byte lists, with `u32` words as `Nat % 2^32`. -/

/-- Reduce a `Nat` to a 32-bit word, modelling `u32` wrap-around. -/
def mask32 (x : Nat) : Nat := x % 4294967296

/-- Rotate a 32-bit word right by `k` bits. -/
def rotr (k x : Nat) : Nat := mask32 ((x >>> k) ||| (x <<< (32 - k)))

/-- Big sigma-0 of SHA-256. -/
def bSig0 (x : Nat) : Nat := (rotr 2 x) ^^^ (rotr 13 x) ^^^ (rotr 22 x)

/-- Big sigma-1 of SHA-256. -/
def bSig1 (x : Nat) : Nat := (rotr 6 x) ^^^ (rotr 11 x) ^^^ (rotr 25 x)

/-- Small sigma-0 of SHA-256. -/
def sSig0 (x : Nat) : Nat := (rotr 7 x) ^^^ (rotr 18 x) ^^^ (x >>> 3)

/-- Small sigma-1 of SHA-256. -/
def sSig1 (x : Nat) : Nat := (rotr 17 x) ^^^ (rotr 19 x) ^^^ (x >>> 10)

/-- Choice function of SHA-256; `¬x` on 32-bit words is `x ^^^ (2^32 - 1)`. -/
def ch (x y z : Nat) : Nat := (x &&& y) ^^^ ((x ^^^ 4294967295) &&& z)

/-- Majority function of SHA-256. -/
def maj (x y z : Nat) : Nat := (x &&& y) ^^^ (x &&& z) ^^^ (y &&& z)

/-- The 64 SHA-256 round constants. -/
def shaK : List Nat :=
  [1116352408, 1899447441, 3049323471, 3921009573, 961987163, 1508970993,
   2453635748, 2870763221, 3624381080, 310598401, 607225278, 1426881987,
   1925078388, 2162078206, 2614888103, 3248222580, 3835390401, 4022224774,
   264347078, 604807628, 770255983, 1249150122, 1555081692, 1996064986,
   2554220882, 2821834349, 2952996808, 3210313671, 3336571891, 3584528711,
   113926993, 338241895, 666307205, 773529912, 1294757372, 1396182291,
   1695183700, 1986661051, 2177026350, 2456956037, 2730485921, 2820302411,
   3259730800, 3345764771, 3516065817, 3600352804, 4094571909, 275423344,
   430227734, 506948616, 659060556, 883997877, 958139571, 1322822218,
   1537002063, 1747873779, 1955562222, 2024104815, 2227730452, 2361852424,
   2428436474, 2756734187, 3204031479, 3329325298]

/-- The SHA-256 initial hash state. -/
def shaInit : List Nat :=
  [1779033703, 3144134277, 1013904242, 2773480762, 1359893119, 2600822924,
   528734635, 1541459225]

/-- Big-endian byte expansion of `n` to exactly `k` bytes. -/
def toBytesBE : Nat → Nat → List Nat
  | 0, _ => []
  | k + 1, n => (n >>> (8 * k)) % 256 :: toBytesBE k n

/-- SHA-256 padding: append `0x80`, zero bytes to a 56-mod-64 boundary, and the
64-bit big-endian bit length. -/
def padMessage (msg : List Nat) : List Nat :=
  msg ++ 128 :: List.replicate ((64 - ((msg.length + 9) % 64)) % 64) 0 ++ toBytesBE 8 (8 * msg.length)

/-- Group bytes into big-endian 32-bit words (complete groups of four). -/
def bytesToWords : List Nat → List Nat
  | a :: b :: c :: d :: rest => (a * 16777216 + b * 65536 + c * 256 + d) :: bytesToWords rest
  | _ => []

/-- Extend the 16-word message schedule by `k` further words. -/
def extendSchedule : Nat → List Nat → List Nat
  | 0, w => w
  | k + 1, w =>
    let n := w.length
    let nw := mask32 (sSig1 (w.getD (n - 2) 0) + w.getD (n - 7) 0 + sSig0 (w.getD (n - 15) 0) +
      w.getD (n - 16) 0)
    extendSchedule k (w ++ [nw])

/-- One SHA-256 compression round on the eight-word state. -/
def shaRound (st : List Nat) (kw : Nat × Nat) : List Nat :=
  match st with
  | [a, b, c, d, e, f, g, h] =>
    let t1 := mask32 (h + bSig1 e + ch e f g + kw.1 + kw.2)
    let t2 := mask32 (bSig0 a + maj a b c)
    [mask32 (t1 + t2), a, b, c, mask32 (d + t1), e, f, g]
  | st => st

/-- Compress one 64-byte block into the running hash state. -/
def processBlock (hs : List Nat) (block : List Nat) : List Nat :=
  let w := extendSchedule 48 (bytesToWords block)
  let st := (shaK.zip w).foldl shaRound hs
  hs.zipWith (fun x y => mask32 (x + y)) st

/-- Split a byte list into 64-byte chunks; the fuel argument is an upper bound
on the list length, making the recursion structural. -/
def chunks64 : Nat → List Nat → List (List Nat)
  | 0, _ => []
  | _, [] => []
  | fuel + 1, l => l.take 64 :: chunks64 fuel (l.drop 64)

/-- Big-endian bytes of one 32-bit word. -/
def wordBytes (w : Nat) : List Nat := toBytesBE 4 w

/-- SHA-256 of a byte list, as a 32-byte list. -/
def sha256 (msg : List Nat) : List Nat :=
  let padded := padMessage msg
  (((chunks64 padded.length padded).foldl processBlock shaInit).map wordBytes).flatten

/-! ### Positional digits (base-256 and base-58 big numbers)

Modelled from the spec: `enc/bases.rs` (`encode_base58`/`decode_base58`) is not
under the exported sources; per the spec the text encodes "version byte +
payload + 4-byte checksum" in base-58 with leading-zero-byte preservation. -/

/-- Value of little-endian digits in the given base. -/
def digitsFromRev (base : Nat) : List Nat → Nat
  | [] => 0
  | d :: ds => d + base * digitsFromRev base ds

/-- Little-endian digits of `n`; the fuel argument (an upper bound on `n`)
makes the recursion structural. -/
def natToDigitsRevAux (base : Nat) : Nat → Nat → List Nat
  | 0, _ => []
  | _ + 1, 0 => []
  | fuel + 1, n + 1 => ((n + 1) % base) :: natToDigitsRevAux base fuel ((n + 1) / base)

/-- Little-endian digits of `n` in the given base (empty for zero). -/
def natToDigitsRev (base n : Nat) : List Nat := natToDigitsRevAux base n n

/-- Big-endian digits of `n` in the given base, with no leading zeros. -/
def natToDigits (base n : Nat) : List Nat := (natToDigitsRev base n).reverse

/-- Value of big-endian digits in the given base. -/
def digitsFrom (base : Nat) (l : List Nat) : Nat := digitsFromRev base l.reverse

/-- Number of leading zero entries of a list. -/
def countLeadingZeros : List Nat → Nat
  | 0 :: rest => countLeadingZeros rest + 1
  | _ => 0

/-- Whether the last entry of a list is nonzero (trivially true for `[]`). -/
def noTrailingZero : List Nat → Bool
  | [] => true
  | [d] => d != 0
  | _ :: d :: rest => noTrailingZero (d :: rest)

/-- Whether the first entry of a list is nonzero (trivially true for `[]`). -/
def noLeadingZero : List Nat → Bool
  | [] => true
  | d :: _ => d != 0

/-- Index of a character in an alphabet, if present. -/
def charIndex : List Char → Char → Option Nat
  | [], _ => none
  | a :: rest, c => if a = c then some 0 else (charIndex rest c).map (· + 1)

/-- Map every character to its alphabet index, failing on any foreign
character. -/
def parseAlphabet (alpha : List Char) : List Char → Option (List Nat)
  | [] => some []
  | c :: rest =>
    match charIndex alpha c, parseAlphabet alpha rest with
    | some v, some vs => some (v :: vs)
    | _, _ => none

/-! ### Errors and base58check

Modelled from the spec: the `EncodingError` type of `coins_core::enc` is not
under the exported sources; per the spec the two address-level conditions are
"unclassifiable" and "data-carrier", and the codec sub-conditions (checksum
mismatch, invalid alphabet character, invalid prefix, wrong version byte) are
distinguishable. -/

/-- Error conditions surfaced by the codec. -/
inductive EncodingError where
  | NullDataScript
  | UnknownScriptType
  | InvalidChar
  | WrongVersion
  | BadChecksum
  | WrongPrefix
  | InvalidLength
deriving DecidableEq, Repr

/-- Result alias mirroring `EncodingResult<T>`. -/
def EncodingResult (α : Type) : Type := Except EncodingError α

/-- The 58-symbol base58 alphabet. -/
def b58Alphabet : List Char :=
  "123456789ABCDEFGHJKLMNPQRSTUVWXYZabcdefghijkmnopqrstuvwxyz".toList

/-- First four bytes of the double-SHA256 of a buffer: the base58check
checksum. -/
def checksum4 (buf : List Nat) : List Nat := (sha256 (sha256 buf)).take 4

/-- Base-58 rendering of a byte buffer: each leading zero byte becomes a
leading `1` symbol, the remainder is the big-number base-58 expansion. -/
def b58Encode (buf : List Nat) : List Char :=
  List.replicate (countLeadingZeros buf) '1' ++
    (natToDigits 58 (digitsFrom 256 buf)).map (b58Alphabet.getD · '?')

/-- Base-58 parsing back to a byte buffer: leading zero digits (the symbol
`1`) become leading zero bytes, the remainder is read as a big number. -/
def b58Decode (cs : List Char) : Option (List Nat) :=
  (parseAlphabet b58Alphabet cs).map
    (fun digits => List.replicate (countLeadingZeros digits) 0 ++
      natToDigits 256 (digitsFrom 58 digits))

/-- Modelled from the spec: `encode_base58` of `enc/bases.rs` prepends the
version byte, appends the 4-byte double-SHA256 checksum, and base-58 encodes
the whole buffer with leading-zero preservation. -/
def encode_base58 (version : Nat) (payload : List Nat) : String :=
  String.mk (b58Encode (version :: payload ++ checksum4 (version :: payload)))

/-- Modelled from the spec: `decode_base58` of `enc/bases.rs` base-58 decodes
the text (failing on a foreign character), verifies the leading version byte,
re-verifies the trailing 4-byte checksum by recomputation, and returns the
payload between them. -/
def decode_base58 (version : Nat) (s : String) : EncodingResult (List Nat) :=
  match b58Decode s.toList with
  | none => .error .InvalidChar
  | some buf =>
    if buf.length < 5 then .error .InvalidLength
    else if buf.headD 0 ≠ version then .error .WrongVersion
    else if checksum4 (buf.take (buf.length - 4)) ≠ buf.drop (buf.length - 4) then
      .error .BadChecksum
    else .ok ((buf.drop 1).take (buf.length - 5))

/-! ### Bech32

Modelled from the spec: `encode_bech32`/`decode_bech32` of
`archive/bitcoins/src/enc/bases.rs` are not under the exported sources.  Per
the spec, encoding regroups the 8-bit input data (witness version byte,
push-length byte and program) into 5-bit groups, appends the BIP173
polynomial-modulus checksum, and renders `hrp ++ "1" ++ data` over the fixed
32-symbol charset; decoding checks the prefix, re-verifies the checksum with
the same polynomial-modulus algorithm (by recomputation), and regroups the
5-bit payload back into the identical 8-bit bytes. -/

/-- Bits of a byte, most significant first. -/
def byteBits (b : Nat) : List Nat :=
  [b / 128 % 2, b / 64 % 2, b / 32 % 2, b / 16 % 2, b / 8 % 2, b / 4 % 2, b / 2 % 2, b % 2]

/-- Bits of a 5-bit group, most significant first. -/
def groupBits (g : Nat) : List Nat := [g / 16 % 2, g / 8 % 2, g / 4 % 2, g / 2 % 2, g % 2]

/-- Reassemble bits into bytes, eight at a time (incomplete tail dropped). -/
def bitsToBytes : List Nat → List Nat
  | b1 :: b2 :: b3 :: b4 :: b5 :: b6 :: b7 :: b8 :: rest =>
    (128 * b1 + 64 * b2 + 32 * b3 + 16 * b4 + 8 * b5 + 4 * b6 + 2 * b7 + b8) :: bitsToBytes rest
  | _ => []

/-- Reassemble bits into 5-bit groups (incomplete tail dropped). -/
def bitsToGroups : List Nat → List Nat
  | b1 :: b2 :: b3 :: b4 :: b5 :: rest =>
    (16 * b1 + 8 * b2 + 4 * b3 + 2 * b4 + b5) :: bitsToGroups rest
  | _ => []

/-- Bit stream of a byte list. -/
def bytesToBits (l : List Nat) : List Nat := (l.map byteBits).flatten

/-- Bit stream of a 5-bit group list. -/
def groupsToBits (l : List Nat) : List Nat := (l.map groupBits).flatten

/-- Zero-pad a bit stream to a multiple of five bits. -/
def pad5 (bits : List Nat) : List Nat := bits ++ List.replicate ((5 - bits.length % 5) % 5) 0

/-- Regroup bytes into 5-bit groups, zero-padding the final group. -/
def convert8to5 (bytes : List Nat) : List Nat := bitsToGroups (pad5 (bytesToBits bytes))

/-- Regroup 5-bit groups into bytes, failing unless the leftover bits are a
zero pad shorter than one group. -/
def convert5to8 (groups : List Nat) : Option (List Nat) :=
  if ((groupsToBits groups).drop (8 * ((groupsToBits groups).length / 8))).length < 5 ∧
      ∀ b ∈ (groupsToBits groups).drop (8 * ((groupsToBits groups).length / 8)), b = 0 then
    some (bitsToBytes ((groupsToBits groups).take (8 * ((groupsToBits groups).length / 8))))
  else none

/-- The fixed 32-symbol bech32 charset. -/
def bech32Charset : List Char := "qpzry9x8gf2tvdw0s3jn54khce6mua7l".toList

/-- The five BIP173 generator constants. -/
def bech32Gen : List Nat := [0x3b6a57b2, 0x26508e6d, 0x1ea119fa, 0x3d4233dd, 0x2a1462b3]

/-- One step of the BIP173 polynomial modulus. -/
def polymodStep (chk v : Nat) : Nat :=
  let b := chk >>> 25
  (List.range 5).foldl
    (fun c i => if (b >>> i) &&& 1 = 1 then c ^^^ bech32Gen.getD i 0 else c)
    (((chk &&& 0x1ffffff) <<< 5) ^^^ v)

/-- The BIP173 polynomial modulus of a 5-bit-group sequence. -/
def bech32Polymod (values : List Nat) : Nat := values.foldl polymodStep 1

/-- BIP173 expansion of the human-readable prefix into 5-bit groups. -/
def bech32HrpExpand (hrp : List Char) : List Nat :=
  hrp.map (fun c => c.toNat >>> 5) ++ 0 :: hrp.map (fun c => c.toNat &&& 31)

/-- The six BIP173 checksum groups for a prefix and data sequence. -/
def bech32CreateChecksum (hrp : List Char) (data : List Nat) : List Nat :=
  let pm := bech32Polymod (bech32HrpExpand hrp ++ data ++ [0, 0, 0, 0, 0, 0]) ^^^ 1
  (List.range 6).map (fun i => (pm >>> (5 * (5 - i))) &&& 31)

/-- The rendered bech32 character sequence for a prefix and 8-bit data. -/
def bech32Chars (hrp : List Char) (data : List Nat) : List Char :=
  hrp ++ '1' :: (convert8to5 data ++ bech32CreateChecksum hrp (convert8to5 data)).map
    (bech32Charset.getD · '?')

/-- The rendered bech32 text for a prefix and 8-bit data. -/
def bech32String (hrp : String) (data : List Nat) : String :=
  String.mk (bech32Chars hrp.toList data)

/-- Modelled from the spec: `encode_bech32` of `enc/bases.rs` regroups the
8-bit data into 5-bit groups (zero-padded, hence total) and renders prefix,
separator, data and checksum over the bech32 charset. -/
def encode_bech32 (hrp : String) (data : List Nat) : EncodingResult String :=
  .ok (bech32String hrp data)

/-- Whether the second character list starts with the first. -/
def listStartsWith : List Char → List Char → Bool
  | [], _ => true
  | _ :: _, [] => false
  | a :: as, b :: bs => a == b && listStartsWith as bs

/-- Modelled from the spec: `decode_bech32` of `enc/bases.rs` fails unless the
text starts with the expected prefix and separator, maps the data characters
back to 5-bit groups (failing on a foreign character), re-verifies the
trailing 6-group checksum by recomputing it with the same polynomial-modulus
algorithm, and regroups the data back into the original bytes. -/
def decode_bech32_core (hrp : List Char) (cs : List Char) : EncodingResult (List Nat) :=
  if listStartsWith (hrp ++ ['1']) cs then
    match parseAlphabet bech32Charset (cs.drop (hrp ++ ['1']).length) with
    | none => .error .InvalidChar
    | some vals =>
      if vals.length < 6 then .error .InvalidLength
      else if bech32CreateChecksum hrp (vals.take (vals.length - 6)) ≠
          vals.drop (vals.length - 6) then .error .BadChecksum
      else
        match convert5to8 (vals.take (vals.length - 6)) with
        | some bytes => .ok bytes
        | none => .error .InvalidLength
  else .error .WrongPrefix

/-- String-level wrapper around `decode_bech32_core`. -/
def decode_bech32 (hrp : String) (s : String) : EncodingResult (List Nat) :=
  decode_bech32_core hrp.toList s.toList

/-! ### Marked digest outputs (`core/src/hashes/mod.rs`) -/

/-- A marked digest output of byte length `n`: a fixed-length array of bytes,
modelling `GenericArray<u8, N>` behind a distinct marker type. -/
def MDigest (n : Nat) : Type := { l : List Nat // l.length = n ∧ ∀ b ∈ l, b < 256 }

instance (n : Nat) : DecidableEq (MDigest n) := fun a b =>
  decidable_of_iff (a.val = b.val) Subtype.ext_iff.symm

/-- Clone in the opposite byte order (`MarkedDigestOutput::reversed`): the
reversed bytes are copied into a fresh digest of the same size. -/
def MDigest.reversed {n : Nat} (d : MDigest n) : MDigest n :=
  ⟨d.val.reverse, by
    refine ⟨by rw [List.length_reverse]; exact d.property.1, ?_⟩
    intro b hb
    exact d.property.2 b (List.mem_reverse.mp hb)⟩

/-- The 16-symbol lowercase hex alphabet. -/
def hexDigits : List Char := "0123456789abcdef".toList

/-- Parse a lowercase hex string into bytes, two characters per byte. -/
def hexDecodePairs : List Char → Option (List Nat)
  | [] => some []
  | c1 :: c2 :: rest =>
    match charIndex hexDigits c1, charIndex hexDigits c2, hexDecodePairs rest with
    | some hi, some lo, some tl => some ((16 * hi + lo) :: tl)
    | _, _, _ => none
  | _ => none

/-- Render bytes as a lowercase hex character list. -/
def hexEncode (l : List Nat) : List Char :=
  (l.map (fun b => [hexDigits.getD (b / 16) '?', hexDigits.getD (b % 16) '?'])).flatten

/-- Modelled from the spec: `ByteFormat::serialize_hex` renders the digest
bytes in their native order as lowercase hex. -/
def serialize_hex {n : Nat} (d : MDigest n) : String := String.mk (hexEncode d.val)

/-- Modelled from the spec: `ByteFormat::deserialize_hex` hex-decodes the text
and reads back a digest of exactly the marked byte length. -/
def deserialize_hex (n : Nat) (s : String) : Option (MDigest n) :=
  match hexDecodePairs s.toList with
  | none => none
  | some l => if h : l.length = n ∧ ∀ b ∈ l, b < 256 then some ⟨l, h⟩ else none

/-- Deserialize from big-endian hex (`MarkedDigestOutput::from_be_hex`):
hex-decode, then reverse. -/
def from_be_hex (n : Nat) (s : String) : Option (MDigest n) :=
  (deserialize_hex n s).map MDigest.reversed

/-- Serialize to big-endian hex (`MarkedDigestOutput::to_be_hex`): reverse,
then hex-encode. -/
def to_be_hex {n : Nat} (d : MDigest n) : String := serialize_hex d.reversed

/-- The RIPEMD160-length marked digest output of `Hash160`. -/
def Hash160Digest : Type := MDigest 20

/-- The SHA256-length marked digest output of `Hash256`. -/
def Hash256Digest : Type := MDigest 32

/-! ### Script classification

Modelled from the spec: `ScriptPubkey` and `ScriptType` of
`bitcoins/src/types/script.rs` are not under the exported sources.  Per the
spec, the classifier matches raw script bytes against the canonical templates
(25-byte `DUP HASH160 PUSH_20 <20> EQUALVERIFY CHECKSIG`, 23-byte
`HASH160 PUSH_20 <20> EQUAL`, version-0 witness programs of 20 or 32 bytes,
`OP_RETURN` data carriers) and extracts the payload. -/

/-- Classification of a spending script, with the extracted payload. -/
inductive ScriptType where
  | Pkh (payload : List Nat)
  | Sh (payload : List Nat)
  | Wpkh (payload : List Nat)
  | Wsh (payload : List Nat)
  | OpReturn (payload : List Nat)
  | NonStandard
deriving DecidableEq, Repr

/-- Modelled from the spec: `ScriptPubkey::standard_type` template matching. -/
def standard_type (s : List Nat) : ScriptType :=
  if s.length = 25 ∧ s.take 3 = [0x76, 0xa9, 0x14] ∧ s.drop 23 = [0x88, 0xac] then
    .Pkh ((s.drop 3).take 20)
  else if s.length = 23 ∧ s.take 2 = [0xa9, 0x14] ∧ s.drop 22 = [0x87] then
    .Sh ((s.drop 2).take 20)
  else if s.length = 22 ∧ s.take 2 = [0x00, 0x14] then .Wpkh (s.drop 2)
  else if s.length = 34 ∧ s.take 2 = [0x00, 0x20] then .Wsh (s.drop 2)
  else if s.headD 1 = 0x6a then .OpReturn (s.drop 1)
  else .NonStandard

/-- Whether a classification is one of the four addressable kinds. -/
def ScriptType.isAddressKind : ScriptType → Bool
  | .Pkh _ | .Sh _ | .Wpkh _ | .Wsh _ => true
  | _ => false

/-- The canonical script-template bytes named by the spec for each addressable
classification (written from the spec's wording, for comparison against the
decoder's output). -/
def canonical_template : ScriptType → Option (List Nat)
  | .Pkh p => some ([0x76, 0xa9, 0x14] ++ p ++ [0x88, 0xac])
  | .Sh p => some ([0xa9, 0x14] ++ p ++ [0x87])
  | .Wpkh p => some ([0x00, 0x14] ++ p)
  | .Wsh p => some ([0x00, 0x20] ++ p)
  | .OpReturn _ => none
  | .NonStandard => none

/-! ### The address codec (`archive/bitcoins/src/enc/encoder.rs`) -/

/-- The available Bitcoin address types, a type enum around strings. -/
inductive Address where
  | Pkh (s : String)
  | Sh (s : String)
  | Wpkh (s : String)
  | Wsh (s : String)
deriving DecidableEq, Repr

/-- Clone of the string underlying the address (`Address::as_string`). -/
def Address.as_string : Address → String
  | .Pkh s | .Sh s | .Wpkh s | .Wsh s => s

/-- Encoding parameters of a bitcoin-like network: bech32 prefix and the two
legacy base58check version bytes (the `NetworkParams` trait, as a value). -/
structure NetworkParams where
  hrp : String
  pkh_version : Nat
  sh_version : Nat
deriving DecidableEq, Repr

/-- The version bytes fit in a `u8` (implicit in the Rust `const ... : u8`). -/
def NetworkParams.Wf (P : NetworkParams) : Prop :=
  P.pkh_version < 256 ∧ P.sh_version < 256

instance (P : NetworkParams) : Decidable P.Wf := by unfold NetworkParams.Wf; infer_instance

/-- The Bitcoin mainnet parameter set. -/
def Main : NetworkParams := ⟨"bc", 0x00, 0x05⟩

/-- The Bitcoin testnet parameter set. -/
def Test : NetworkParams := ⟨"tb", 0x6f, 0xc4⟩

/-- The Bitcoin signet parameter set. -/
def Sig : NetworkParams := ⟨"sb", 0x7d, 0x57⟩

/-- `BitcoinEncoder::<P>::encode_address`: classify the script, base58check the
extracted hash for the legacy kinds, bech32 the whole script for the witness
kinds, and reject data carriers and unclassifiable scripts. -/
def encode_address (P : NetworkParams) (s : List Nat) : EncodingResult Address :=
  match standard_type s with
  | .Pkh payload => .ok (.Pkh (encode_base58 P.pkh_version payload))
  | .Sh payload => .ok (.Sh (encode_base58 P.sh_version payload))
  | .Wsh _ => (encode_bech32 P.hrp s).map Address.Wsh
  | .Wpkh _ => (encode_bech32 P.hrp s).map Address.Wpkh
  | .OpReturn _ => .error .NullDataScript
  | .NonStandard => .error .UnknownScriptType

/-- `BitcoinEncoder::<P>::decode_address`: rebuild the script template around
the base58check payload, or return the bech32 bytes verbatim.  The Rust source
calls `.unwrap()` on each inner decode and returns a bare `ScriptPubkey`; the
panic on a failed decode is modelled as `none`. -/
def decode_address (P : NetworkParams) (a : Address) : Option (List Nat) :=
  match a with
  | .Pkh s => (decode_base58 P.pkh_version s).toOption.map
      (fun payload => [0x76, 0xa9, 0x14] ++ payload ++ [0x88, 0xac])
  | .Sh s => (decode_base58 P.sh_version s).toOption.map
      (fun payload => [0xa9, 0x14] ++ payload ++ [0x87])
  | .Wpkh s | .Wsh s => (decode_bech32 P.hrp s).toOption

/-- Whether an `Except` holds a success value (`Result::is_ok`). -/
def exceptIsOk {e a : Type} : Except e a → Bool
  | .ok _ => true
  | .error _ => false

/-- `BitcoinEncoder::<P>::string_to_address`: if the text starts with the
network prefix, bech32-decode and dispatch on the decoded length (22 bytes to
`Wpkh`, 34 to `Wsh`); otherwise try base58check with the PKH then the SH
version byte. -/
def string_to_address (P : NetworkParams) (s : String) : EncodingResult Address :=
  if listStartsWith P.hrp.toList s.toList then
    match decode_bech32 P.hrp s with
    | .error e => .error e
    | .ok r =>
      if r.length = 22 then .ok (.Wpkh s)
      else if r.length = 34 then .ok (.Wsh s)
      else .error .UnknownScriptType
  else if exceptIsOk (decode_base58 P.pkh_version s) then .ok (.Pkh s)
  else if exceptIsOk (decode_base58 P.sh_version s) then .ok (.Sh s)
  else .error .UnknownScriptType

/-! ### Lemmas: positional digits -/

theorem natToDigitsRevAux_zero (base : Nat) (f : Nat) : natToDigitsRevAux base f 0 = [] := by
  cases f <;> rfl

theorem digitsFromRev_natToDigitsRevAux (base : Nat) (hb : 2 ≤ base) :
    ∀ f n, n ≤ f → digitsFromRev base (natToDigitsRevAux base f n) = n := by
  intro f
  induction f with
  | zero => intro n hn; interval_cases n; rfl
  | succ f ih =>
    intro n hn
    match n with
    | 0 => rfl
    | n + 1 =>
      have hdiv : (n + 1) / base ≤ f := by
        have h2 : (n + 1) / base ≤ (n + 1) / 2 := Nat.div_le_div_left hb (by omega)
        have h3 : (n + 1) / 2 ≤ n := by omega
        omega
      simp only [natToDigitsRevAux, digitsFromRev, ih _ hdiv]
      have hdm := Nat.div_add_mod (n + 1) base
      omega

theorem natToDigitsRevAux_mem_lt (base : Nat) (hb : 0 < base) :
    ∀ f n d, d ∈ natToDigitsRevAux base f n → d < base := by
  intro f
  induction f with
  | zero => intro n d hd; simp [natToDigitsRevAux] at hd
  | succ f ih =>
    intro n d hd
    match n with
    | 0 => simp [natToDigitsRevAux] at hd
    | n + 1 =>
      simp only [natToDigitsRevAux, List.mem_cons] at hd
      rcases hd with rfl | hd
      · exact Nat.mod_lt _ hb
      · exact ih _ _ hd

theorem noTrailingZero_cons_of_ne_nil (a : Nat) (l : List Nat) (hl : l ≠ []) :
    noTrailingZero (a :: l) = noTrailingZero l := by
  match l with
  | [] => exact absurd rfl hl
  | d :: rest => rfl

theorem natToDigitsRevAux_noTrailingZero (base : Nat) (hb : 2 ≤ base) :
    ∀ f n, n ≤ f → noTrailingZero (natToDigitsRevAux base f n) = true := by
  intro f
  induction f with
  | zero => intro n hn; interval_cases n; rfl
  | succ f ih =>
    intro n hn
    match n with
    | 0 => rfl
    | n + 1 =>
      simp only [natToDigitsRevAux]
      by_cases hq : (n + 1) / base = 0
      · rw [hq, natToDigitsRevAux_zero]
        have : (n + 1) % base = n + 1 := by
          have hdm := Nat.div_add_mod (n + 1) base
          rw [hq, Nat.mul_zero, Nat.zero_add] at hdm
          exact hdm
        simp [noTrailingZero, this]
      · have hdiv : (n + 1) / base ≤ f := by
          have h2 : (n + 1) / base ≤ (n + 1) / 2 := Nat.div_le_div_left hb (by omega)
          have h3 : (n + 1) / 2 ≤ n := by omega
          omega
        have htail := ih _ hdiv
        have hne : natToDigitsRevAux base f ((n + 1) / base) ≠ [] := by
          intro hnil
          have hv := digitsFromRev_natToDigitsRevAux base hb f _ hdiv
          rw [hnil] at hv
          simp [digitsFromRev] at hv
          omega
        rw [noTrailingZero_cons_of_ne_nil _ _ hne]
        exact htail

theorem digitsFromRev_eq_zero_canonical (base : Nat) (hb : 2 ≤ base) :
    ∀ l, digitsFromRev base l = 0 → noTrailingZero l = true → l = [] := by
  intro l
  induction l with
  | nil => intro _ _; rfl
  | cons d rest ih =>
    intro hv hc
    simp only [digitsFromRev] at hv
    have hd : d = 0 := by omega
    have hw : digitsFromRev base rest = 0 := by
      rcases Nat.mul_eq_zero.mp (by omega : base * digitsFromRev base rest = 0) with h | h
      · omega
      · exact h
    match rest, ih with
    | [], _ => simp [noTrailingZero, hd] at hc
    | e :: t, ih =>
      rw [noTrailingZero_cons_of_ne_nil _ _ (by simp)] at hc
      exact absurd (ih hw hc) (by simp)

theorem natToDigitsRevAux_digitsFromRev (base : Nat) (hb : 2 ≤ base) :
    ∀ l f, (∀ d ∈ l, d < base) → noTrailingZero l = true →
      digitsFromRev base l ≤ f → natToDigitsRevAux base f (digitsFromRev base l) = l := by
  intro l
  induction l with
  | nil => intro f _ _ _; exact natToDigitsRevAux_zero base f
  | cons d rest ih =>
    intro f hmem hc hf
    have hd : d < base := hmem d (by simp)
    have hv : digitsFromRev base (d :: rest) = d + base * digitsFromRev base rest := rfl
    by_cases hv0 : d + base * digitsFromRev base rest = 0
    · exfalso
      have := digitsFromRev_eq_zero_canonical base hb (d :: rest) (by rw [hv]; omega) hc
      simp at this
    · rw [hv] at hf ⊢
      obtain ⟨v', hv2⟩ : ∃ v', d + base * digitsFromRev base rest = v' + 1 :=
        ⟨d + base * digitsFromRev base rest - 1, by omega⟩
      obtain ⟨f', hf2⟩ : ∃ f', f = f' + 1 := ⟨f - 1, by omega⟩
      rw [hf2, hv2]
      simp only [natToDigitsRevAux]
      have hmod : (v' + 1) % base = d := by
        rw [← hv2, Nat.add_mul_mod_self_left, Nat.mod_eq_of_lt hd]
      have hdivq : (v' + 1) / base = digitsFromRev base rest := by
        rw [← hv2, Nat.add_mul_div_left d _ (by omega), Nat.div_eq_of_lt hd, Nat.zero_add]
      rw [hmod, hdivq]
      have htail : natToDigitsRevAux base f' (digitsFromRev base rest) = rest := by
        match rest, ih with
        | [], _ => exact natToDigitsRevAux_zero base f'
        | e :: t, ih =>
          rw [noTrailingZero_cons_of_ne_nil _ _ (by simp)] at hc
          have hwle : digitsFromRev base (e :: t) ≤ f' := by
            have hlt : (v' + 1) / base ≤ (v' + 1) / 2 := Nat.div_le_div_left hb (by omega)
            have h3 : (v' + 1) / 2 ≤ v' := by omega
            omega
          exact ih f' (fun x hx => hmem x (by simp [hx])) hc hwle
      rw [htail]

theorem digitsFrom_natToDigits (base : Nat) (hb : 2 ≤ base) (n : Nat) :
    digitsFrom base (natToDigits base n) = n := by
  unfold digitsFrom natToDigits
  rw [List.reverse_reverse]
  exact digitsFromRev_natToDigitsRevAux base hb n n (Nat.le_refl n)

theorem noTrailingZero_append_single (a : Nat) :
    ∀ xs, noTrailingZero (xs ++ [a]) = (a != 0) := by
  intro xs
  induction xs with
  | nil => rfl
  | cons x xs ih =>
    match xs with
    | [] => rfl
    | y :: ys =>
      rw [← ih]
      rfl

theorem noTrailingZero_reverse (l : List Nat) :
    noTrailingZero l.reverse = noLeadingZero l := by
  match l with
  | [] => rfl
  | x :: t =>
    rw [List.reverse_cons, noTrailingZero_append_single]
    rfl

theorem noLeadingZero_natToDigits (base n : Nat) :
    noLeadingZero (natToDigits base n) = noTrailingZero (natToDigitsRev base n) := by
  unfold natToDigits
  rw [← noTrailingZero_reverse, List.reverse_reverse]

theorem natToDigits_digitsFrom (base : Nat) (hb : 2 ≤ base) (l : List Nat)
    (hmem : ∀ d ∈ l, d < base) (hc : noLeadingZero l = true) :
    natToDigits base (digitsFrom base l) = l := by
  unfold natToDigits natToDigitsRev digitsFrom
  rw [natToDigitsRevAux_digitsFromRev base hb l.reverse _
    (fun d hd => hmem d (List.mem_reverse.mp hd))
    (by rw [noTrailingZero_reverse]; exact hc) (Nat.le_refl _)]
  exact List.reverse_reverse l

theorem natToDigits_mem_lt (base : Nat) (hb : 0 < base) (n : Nat) :
    ∀ d ∈ natToDigits base n, d < base := by
  intro d hd
  unfold natToDigits natToDigitsRev at hd
  exact natToDigitsRevAux_mem_lt base hb n n d (List.mem_reverse.mp hd)

theorem countLeadingZeros_cons_succ (k : Nat) (rest : List Nat) :
    countLeadingZeros ((k + 1) :: rest) = 0 := rfl

theorem countLeadingZeros_of_noLeadingZero (l : List Nat) (h : noLeadingZero l = true) :
    countLeadingZeros l = 0 := by
  match l with
  | [] => rfl
  | d :: rest =>
    simp only [noLeadingZero, bne_iff_ne, ne_eq] at h
    obtain ⟨k, rfl⟩ : ∃ k, d = k + 1 := ⟨d - 1, by omega⟩
    rfl

theorem countLeadingZeros_replicate_append (z : Nat) (l : List Nat) :
    countLeadingZeros (List.replicate z 0 ++ l) = z + countLeadingZeros l := by
  induction z with
  | zero => simp
  | succ z ih =>
    rw [List.replicate_succ, List.cons_append]
    show countLeadingZeros (List.replicate z 0 ++ l) + 1 = z + 1 + countLeadingZeros l
    omega

theorem replicate_append_drop_countLeadingZeros (l : List Nat) :
    List.replicate (countLeadingZeros l) 0 ++ l.drop (countLeadingZeros l) = l := by
  induction l with
  | nil => rfl
  | cons d rest ih =>
    match d with
    | 0 =>
      show List.replicate (countLeadingZeros rest + 1) 0 ++ _ = _
      rw [List.replicate_succ, List.cons_append]
      show 0 :: (List.replicate (countLeadingZeros rest) 0 ++ rest.drop (countLeadingZeros rest)) =
        0 :: rest
      rw [ih]
    | k + 1 => rfl

theorem noLeadingZero_drop_countLeadingZeros (l : List Nat) :
    noLeadingZero (l.drop (countLeadingZeros l)) = true := by
  induction l with
  | nil => rfl
  | cons d rest ih =>
    match d with
    | 0 => exact ih
    | k + 1 => rfl

theorem digitsFromRev_append_zeros (base z : Nat) :
    ∀ l, digitsFromRev base (l ++ List.replicate z 0) = digitsFromRev base l := by
  intro l
  induction l with
  | nil =>
    show digitsFromRev base (List.replicate z 0) = 0
    induction z with
    | zero => rfl
    | succ z ihz =>
      rw [List.replicate_succ]
      show 0 + base * digitsFromRev base (List.replicate z 0) = 0
      rw [ihz, Nat.mul_zero, Nat.add_zero]
  | cons d rest ih =>
    show d + base * digitsFromRev base (rest ++ List.replicate z 0) = d + base * digitsFromRev base rest
    rw [ih]

theorem digitsFrom_replicate_zero_append (base z : Nat) (l : List Nat) :
    digitsFrom base (List.replicate z 0 ++ l) = digitsFrom base l := by
  unfold digitsFrom
  rw [List.reverse_append, List.reverse_replicate, digitsFromRev_append_zeros]

/-! ### Lemmas: alphabets and parsing -/

theorem charIndex_lt (c : Char) : ∀ alpha v, charIndex alpha c = some v → v < alpha.length := by
  intro alpha
  induction alpha with
  | nil => intro v h; simp [charIndex] at h
  | cons a rest ih =>
    intro v h
    simp only [charIndex] at h
    by_cases hac : a = c
    · rw [if_pos hac] at h
      simp only [Option.some.injEq] at h
      simp [← h]
    · rw [if_neg hac] at h
      match hrec : charIndex rest c with
      | none => rw [hrec] at h; simp at h
      | some u =>
        rw [hrec] at h
        simp only [Option.map_some', Option.some.injEq] at h
        have := ih u hrec
        simp only [List.length_cons]
        omega

theorem charIndex_getD (c : Char) :
    ∀ alpha v, charIndex alpha c = some v → alpha.getD v '?' = c := by
  intro alpha
  induction alpha with
  | nil => intro v h; simp [charIndex] at h
  | cons a rest ih =>
    intro v h
    simp only [charIndex] at h
    by_cases hac : a = c
    · rw [if_pos hac] at h
      simp only [Option.some.injEq] at h
      rw [← h]
      exact hac
    · rw [if_neg hac] at h
      match hrec : charIndex rest c with
      | none => rw [hrec] at h; simp at h
      | some u =>
        rw [hrec] at h
        simp only [Option.map_some', Option.some.injEq] at h
        rw [← h]
        exact ih u hrec

theorem parseAlphabet_map (alpha : List Char)
    (hinv : ∀ v, v < alpha.length → charIndex alpha (alpha.getD v '?') = some v) :
    ∀ vals, (∀ v ∈ vals, v < alpha.length) →
      parseAlphabet alpha (vals.map (alpha.getD · '?')) = some vals := by
  intro vals
  induction vals with
  | nil => intro _; rfl
  | cons v vs ih =>
    intro hv
    rw [List.map_cons]
    show parseAlphabet alpha (alpha.getD v '?' :: vs.map (alpha.getD · '?')) = some (v :: vs)
    simp only [parseAlphabet]
    rw [hinv v (hv v (by simp)), ih (fun x hx => hv x (by simp [hx]))]

theorem parseAlphabet_replicate_cons (alpha : List Char) (c : Char) (u : Nat)
    (hc : charIndex alpha c = some u) :
    ∀ z l vs, parseAlphabet alpha l = some vs →
      parseAlphabet alpha (List.replicate z c ++ l) = some (List.replicate z u ++ vs) := by
  intro z
  induction z with
  | zero => intro l vs h; simpa using h
  | succ z ih =>
    intro l vs h
    rw [List.replicate_succ, List.cons_append, List.replicate_succ, List.cons_append]
    simp only [parseAlphabet]
    rw [hc, ih l vs h]

/-! ### Lemmas: SHA-256 output shape -/

theorem toBytesBE_length (k n : Nat) : (toBytesBE k n).length = k := by
  induction k generalizing n with
  | zero => rfl
  | succ k ih => simp [toBytesBE, ih]

theorem toBytesBE_mem_lt (k n : Nat) : ∀ b ∈ toBytesBE k n, b < 256 := by
  induction k generalizing n with
  | zero => intro b hb; simp [toBytesBE] at hb
  | succ k ih =>
    intro b hb
    simp only [toBytesBE, List.mem_cons] at hb
    rcases hb with rfl | hb
    · exact Nat.mod_lt _ (by omega)
    · exact ih n b hb

theorem shaRound_length (st : List Nat) (kw : Nat × Nat) (h : st.length = 8) :
    (shaRound st kw).length = 8 := by
  match st, h with
  | [a, b, c, d, e, f, g, hh], _ => rfl

theorem foldl_shaRound_length (l : List (Nat × Nat)) :
    ∀ st, st.length = 8 → (l.foldl shaRound st).length = 8 := by
  induction l with
  | nil => intro st h; exact h
  | cons kw rest ih =>
    intro st h
    exact ih _ (shaRound_length st kw h)

theorem processBlock_length (hs block : List Nat) (h : hs.length = 8) :
    (processBlock hs block).length = 8 := by
  unfold processBlock
  rw [List.length_zipWith, foldl_shaRound_length _ _ h, h]
  rfl

theorem foldl_processBlock_length (L : List (List Nat)) :
    ∀ hs, hs.length = 8 → (L.foldl processBlock hs).length = 8 := by
  induction L with
  | nil => intro hs h; exact h
  | cons b rest ih =>
    intro hs h
    exact ih _ (processBlock_length hs b h)

theorem flatten_map_length_const {α : Type} (f : α → List Nat) (k : Nat) :
    ∀ L : List α, (∀ x ∈ L, (f x).length = k) → ((L.map f).flatten).length = k * L.length := by
  intro L
  induction L with
  | nil => intro _; rfl
  | cons x rest ih =>
    intro h
    rw [List.map_cons, List.flatten_cons, List.length_append, h x (by simp),
      ih (fun y hy => h y (by simp [hy])), List.length_cons]
    ring

theorem sha256_length (msg : List Nat) : (sha256 msg).length = 32 := by
  unfold sha256
  rw [flatten_map_length_const wordBytes 4 _ (fun x _ => toBytesBE_length 4 x),
    foldl_processBlock_length _ _ (by rfl)]

theorem sha256_mem_lt (msg : List Nat) : ∀ b ∈ sha256 msg, b < 256 := by
  intro b hb
  unfold sha256 at hb
  rw [List.mem_flatten] at hb
  obtain ⟨l, hl, hbl⟩ := hb
  rw [List.mem_map] at hl
  obtain ⟨w, _, rfl⟩ := hl
  exact toBytesBE_mem_lt 4 w b hbl

theorem checksum4_length (buf : List Nat) : (checksum4 buf).length = 4 := by
  unfold checksum4
  rw [List.length_take, sha256_length]
  rfl

theorem checksum4_mem_lt (buf : List Nat) : ∀ b ∈ checksum4 buf, b < 256 := by
  intro b hb
  exact sha256_mem_lt _ b (List.take_subset _ _ hb)

/-! ### Lemmas: base58check round trip -/

theorem toList_mk (l : List Char) : (String.mk l).toList = l := rfl

theorem charIndex_b58_one : charIndex b58Alphabet '1' = some 0 := by decide

theorem b58_hinv : ∀ v, v < b58Alphabet.length →
    charIndex b58Alphabet (b58Alphabet.getD v '?') = some v := by decide

theorem natToDigits_58_lt (n : Nat) : ∀ d ∈ natToDigits 58 n, d < b58Alphabet.length := by
  intro d hd
  have : d < 58 := natToDigits_mem_lt 58 (by omega) n d hd
  simpa using this

theorem noLeadingZero_natToDigits_of_two_le (base n : Nat) (hb : 2 ≤ base) :
    noLeadingZero (natToDigits base n) = true := by
  rw [noLeadingZero_natToDigits]
  exact natToDigitsRevAux_noTrailingZero base hb n n (Nat.le_refl n)

theorem b58Decode_b58Encode (buf : List Nat) (hbuf : ∀ b ∈ buf, b < 256) :
    b58Decode (b58Encode buf) = some buf := by
  unfold b58Encode b58Decode
  rw [parseAlphabet_replicate_cons b58Alphabet '1' 0 charIndex_b58_one _ _ _
    (parseAlphabet_map b58Alphabet b58_hinv _ (natToDigits_58_lt _))]
  have hnl : noLeadingZero (natToDigits 58 (digitsFrom 256 buf)) = true :=
    noLeadingZero_natToDigits_of_two_le 58 _ (by omega)
  simp only [Option.map_some', Option.some.injEq]
  rw [countLeadingZeros_replicate_append, countLeadingZeros_of_noLeadingZero _ hnl,
    digitsFrom_replicate_zero_append, digitsFrom_natToDigits 58 (by omega)]
  have hsplit := replicate_append_drop_countLeadingZeros buf
  have hval : digitsFrom 256 buf = digitsFrom 256 (buf.drop (countLeadingZeros buf)) := by
    conv_lhs => rw [← hsplit]
    rw [digitsFrom_replicate_zero_append]
  rw [hval, natToDigits_digitsFrom 256 (by omega) _
    (fun d hd => hbuf d (List.drop_subset _ _ hd))
    (noLeadingZero_drop_countLeadingZeros buf), Nat.add_zero]
  exact hsplit

theorem decode_encode_base58 (version : Nat) (payload : List Nat)
    (hp : ∀ b ∈ payload, b < 256) (hv : version < 256) :
    decode_base58 version (encode_base58 version payload) = .ok payload := by
  have hck4 : (checksum4 (version :: payload)).length = 4 := checksum4_length _
  have hbuf : ∀ b ∈ version :: payload ++ checksum4 (version :: payload), b < 256 := by
    intro b hb
    rcases List.mem_cons.mp hb with rfl | hb2
    · exact hv
    · rcases List.mem_append.mp hb2 with h | h
      · exact hp b h
      · exact checksum4_mem_lt _ b h
  have hlen : (version :: payload ++ checksum4 (version :: payload)).length =
      payload.length + 5 := by
    simp only [List.length_cons, List.length_append, hck4]
  simp only [decode_base58, encode_base58, toList_mk, b58Decode_b58Encode _ hbuf]
  rw [if_neg (by rw [hlen]; omega)]
  rw [if_neg (by simp)]
  have hm4 : (version :: payload ++ checksum4 (version :: payload)).length - 4 =
      payload.length + 1 := by rw [hlen]; omega
  have hm5 : (version :: payload ++ checksum4 (version :: payload)).length - 5 =
      payload.length := by rw [hlen]; omega
  have htake : (version :: payload ++ checksum4 (version :: payload)).take
      (payload.length + 1) = version :: payload :=
    List.take_left' (by simp)
  have hdrop : (version :: payload ++ checksum4 (version :: payload)).drop
      (payload.length + 1) = checksum4 (version :: payload) :=
    List.drop_left' (by simp)
  rw [hm4, htake, hdrop, if_neg (not_not_intro rfl), hm5]
  show Except.ok ((payload ++ checksum4 (version :: payload)).take payload.length) = _
  rw [List.take_left' rfl]

/-! ### Lemmas: bech32 bit regrouping -/

theorem byteBits_mem_lt (b : Nat) : ∀ x ∈ byteBits b, x < 2 := by
  intro x hx
  simp only [byteBits, List.mem_cons, List.not_mem_nil, or_false] at hx
  rcases hx with rfl | rfl | rfl | rfl | rfl | rfl | rfl | rfl <;> exact Nat.mod_lt _ (by omega)

theorem bytesToBits_mem_lt (l : List Nat) : ∀ x ∈ bytesToBits l, x < 2 := by
  intro x hx
  unfold bytesToBits at hx
  rw [List.mem_flatten] at hx
  obtain ⟨bl, hbl, hxbl⟩ := hx
  rw [List.mem_map] at hbl
  obtain ⟨b, _, rfl⟩ := hbl
  exact byteBits_mem_lt b x hxbl

theorem bytesToBits_length (l : List Nat) : (bytesToBits l).length = 8 * l.length := by
  unfold bytesToBits
  exact flatten_map_length_const byteBits 8 l (fun b _ => rfl)

theorem bitsToBytes_bytesToBits (l : List Nat) (h : ∀ b ∈ l, b < 256) :
    bitsToBytes (bytesToBits l) = l := by
  induction l with
  | nil => rfl
  | cons b t ih =>
    have hb : b < 256 := h b (by simp)
    show (128 * (b / 128 % 2) + 64 * (b / 64 % 2) + 32 * (b / 32 % 2) + 16 * (b / 16 % 2) +
      8 * (b / 8 % 2) + 4 * (b / 4 % 2) + 2 * (b / 2 % 2) + b % 2) ::
      bitsToBytes (bytesToBits t) = b :: t
    rw [ih (fun x hx => h x (by simp [hx]))]
    congr 1
    omega

theorem groupsToBits_bitsToGroups (l : List Nat) (hbits : ∀ b ∈ l, b < 2)
    (hlen : 5 ∣ l.length) : groupsToBits (bitsToGroups l) = l := by
  induction l using bitsToGroups.induct with
  | case1 b1 b2 b3 b4 b5 rest =>
    rename_i ih
    have h1 : b1 < 2 := hbits b1 (by simp)
    have h2 : b2 < 2 := hbits b2 (by simp)
    have h3 : b3 < 2 := hbits b3 (by simp)
    have h4 : b4 < 2 := hbits b4 (by simp)
    have h5 : b5 < 2 := hbits b5 (by simp)
    have hrest : 5 ∣ rest.length := by
      simp only [List.length_cons] at hlen
      omega
    show ((16 * b1 + 8 * b2 + 4 * b3 + 2 * b4 + b5) / 16 % 2) ::
      ((16 * b1 + 8 * b2 + 4 * b3 + 2 * b4 + b5) / 8 % 2) ::
      ((16 * b1 + 8 * b2 + 4 * b3 + 2 * b4 + b5) / 4 % 2) ::
      ((16 * b1 + 8 * b2 + 4 * b3 + 2 * b4 + b5) / 2 % 2) ::
      ((16 * b1 + 8 * b2 + 4 * b3 + 2 * b4 + b5) % 2) ::
      groupsToBits (bitsToGroups rest) = b1 :: b2 :: b3 :: b4 :: b5 :: rest
    rw [ih (fun x hx => hbits x (by simp [hx])) hrest]
    have e1 : (16 * b1 + 8 * b2 + 4 * b3 + 2 * b4 + b5) / 16 % 2 = b1 := by omega
    have e2 : (16 * b1 + 8 * b2 + 4 * b3 + 2 * b4 + b5) / 8 % 2 = b2 := by omega
    have e3 : (16 * b1 + 8 * b2 + 4 * b3 + 2 * b4 + b5) / 4 % 2 = b3 := by omega
    have e4 : (16 * b1 + 8 * b2 + 4 * b3 + 2 * b4 + b5) / 2 % 2 = b4 := by omega
    have e5 : (16 * b1 + 8 * b2 + 4 * b3 + 2 * b4 + b5) % 2 = b5 := by omega
    rw [e1, e2, e3, e4, e5]
  | case2 t hne =>
    match t, hlen, hne with
    | [], _, _ => rfl
    | [a], h, _ => exact absurd h (by rw [List.length_cons, List.length_nil]; decide)
    | [a, b], h, _ => exact absurd h (by simp only [List.length_cons, List.length_nil]; decide)
    | [a, b, c], h, _ => exact absurd h (by simp only [List.length_cons, List.length_nil]; decide)
    | [a, b, c, d], h, _ => exact absurd h (by simp only [List.length_cons, List.length_nil]; decide)
    | a :: b :: c :: d :: e :: rest, _, hne => exact (hne a b c d e rest rfl).elim

theorem bitsToGroups_mem_lt (l : List Nat) (hbits : ∀ b ∈ l, b < 2) :
    ∀ g ∈ bitsToGroups l, g < 32 := by
  induction l using bitsToGroups.induct with
  | case1 b1 b2 b3 b4 b5 rest =>
    rename_i ih
    intro g hg
    have h1 : b1 < 2 := hbits b1 (by simp)
    have h2 : b2 < 2 := hbits b2 (by simp)
    have h3 : b3 < 2 := hbits b3 (by simp)
    have h4 : b4 < 2 := hbits b4 (by simp)
    have h5 : b5 < 2 := hbits b5 (by simp)
    rw [show bitsToGroups (b1 :: b2 :: b3 :: b4 :: b5 :: rest) =
      (16 * b1 + 8 * b2 + 4 * b3 + 2 * b4 + b5) :: bitsToGroups rest from rfl,
      List.mem_cons] at hg
    rcases hg with rfl | hg
    · omega
    · exact ih (fun x hx => hbits x (by simp [hx])) g hg
  | case2 t hne =>
    intro g hg
    match t, hg, hne with
    | [], hg, _ => simp [bitsToGroups] at hg
    | [a], hg, _ => simp [bitsToGroups] at hg
    | [a, b], hg, _ => simp [bitsToGroups] at hg
    | [a, b, c], hg, _ => simp [bitsToGroups] at hg
    | [a, b, c, d], hg, _ => simp [bitsToGroups] at hg
    | a :: b :: c :: d :: e :: rest, _, hne => exact (hne a b c d e rest rfl).elim

theorem pad5_bits (l : List Nat) (hb : ∀ b ∈ l, b < 2) : ∀ b ∈ pad5 l, b < 2 := by
  intro b hbm
  rcases List.mem_append.mp hbm with h | h
  · exact hb b h
  · rw [List.eq_of_mem_replicate h]; omega

theorem pad5_length_dvd (l : List Nat) : 5 ∣ (pad5 l).length := by
  unfold pad5
  rw [List.length_append, List.length_replicate]
  omega

theorem convert5to8_convert8to5 (l : List Nat) (h : ∀ b ∈ l, b < 256) :
    convert5to8 (convert8to5 l) = some l := by
  unfold convert8to5 convert5to8
  rw [groupsToBits_bitsToGroups _ (pad5_bits _ (bytesToBits_mem_lt l)) (pad5_length_dvd _)]
  have hbl : (bytesToBits l).length = 8 * l.length := bytesToBits_length l
  have hplen : (pad5 (bytesToBits l)).length = 8 * l.length + (5 - (8 * l.length) % 5) % 5 := by
    unfold pad5
    rw [List.length_append, List.length_replicate, hbl]
  have hdiv : (pad5 (bytesToBits l)).length / 8 = l.length := by
    rw [hplen]
    omega
  rw [hdiv]
  have htake : (pad5 (bytesToBits l)).take (8 * l.length) = bytesToBits l := List.take_left' hbl
  have hdropp : (pad5 (bytesToBits l)).drop (8 * l.length) =
      List.replicate ((5 - (bytesToBits l).length % 5) % 5) 0 := List.drop_left' hbl
  rw [htake, hdropp]
  rw [if_pos ⟨by rw [List.length_replicate]; omega, fun b hb => List.eq_of_mem_replicate hb⟩]
  rw [bitsToBytes_bytesToBits l h]

/-! ### Lemmas: bech32 round trip -/

theorem bech32CreateChecksum_length (hrp : List Char) (data : List Nat) :
    (bech32CreateChecksum hrp data).length = 6 := by
  unfold bech32CreateChecksum
  rw [List.length_map, List.length_range]

theorem bech32CreateChecksum_mem_lt (hrp : List Char) (data : List Nat) :
    ∀ g ∈ bech32CreateChecksum hrp data, g < 32 := by
  intro g hg
  unfold bech32CreateChecksum at hg
  rw [List.mem_map] at hg
  obtain ⟨i, _, rfl⟩ := hg
  have := Nat.and_le_right
    (n := (bech32Polymod (bech32HrpExpand hrp ++ data ++ [0, 0, 0, 0, 0, 0]) ^^^ 1) >>> (5 * (5 - i)))
    (m := 31)
  omega

theorem convert8to5_mem_lt (data : List Nat) : ∀ g ∈ convert8to5 data, g < 32 := by
  intro g hg
  exact bitsToGroups_mem_lt _ (pad5_bits _ (bytesToBits_mem_lt data)) g hg

theorem listStartsWith_append_self (a b : List Char) : listStartsWith a (a ++ b) = true := by
  induction a with
  | nil => rfl
  | cons x xs ih =>
    show (x == x && listStartsWith xs (xs ++ b)) = true
    rw [ih, beq_self_eq_true]
    rfl

theorem b32_hinv : ∀ v, v < bech32Charset.length →
    charIndex bech32Charset (bech32Charset.getD v '?') = some v := by decide

theorem decode_encode_bech32_core (hrp : List Char) (data : List Nat)
    (h : ∀ b ∈ data, b < 256) :
    decode_bech32_core hrp (bech32Chars hrp data) = .ok data := by
  have hparse : parseAlphabet bech32Charset
      ((convert8to5 data ++ bech32CreateChecksum hrp (convert8to5 data)).map
        (bech32Charset.getD · '?')) =
      some (convert8to5 data ++ bech32CreateChecksum hrp (convert8to5 data)) := by
    refine parseAlphabet_map bech32Charset b32_hinv _ ?_
    intro v hv
    rcases List.mem_append.mp hv with hvm | hvm
    · have := convert8to5_mem_lt data v hvm
      simpa using this
    · have := bech32CreateChecksum_mem_lt hrp _ v hvm
      simpa using this
  unfold decode_bech32_core bech32Chars
  set m := (convert8to5 data ++ bech32CreateChecksum hrp (convert8to5 data)).map
    (bech32Charset.getD · '?') with hm
  rw [List.append_cons hrp '1' m, listStartsWith_append_self, if_pos rfl, List.drop_left]
  simp only [hparse]
  have hck6 : (bech32CreateChecksum hrp (convert8to5 data)).length = 6 :=
    bech32CreateChecksum_length _ _
  have hvlen : (convert8to5 data ++ bech32CreateChecksum hrp (convert8to5 data)).length =
      (convert8to5 data).length + 6 := by
    rw [List.length_append, hck6]
  have hm6 : (convert8to5 data ++ bech32CreateChecksum hrp (convert8to5 data)).length - 6 =
      (convert8to5 data).length := by
    rw [hvlen]
    omega
  have htake : (convert8to5 data ++ bech32CreateChecksum hrp (convert8to5 data)).take
      ((convert8to5 data).length) = convert8to5 data := List.take_left _ _
  have hdropc : (convert8to5 data ++ bech32CreateChecksum hrp (convert8to5 data)).drop
      ((convert8to5 data).length) = bech32CreateChecksum hrp (convert8to5 data) :=
    List.drop_left _ _
  rw [if_neg (by rw [hvlen]; omega), hm6, htake, hdropc, if_neg (not_not_intro rfl),
    convert5to8_convert8to5 data h]

theorem decode_encode_bech32 (hrp : String) (data : List Nat) (h : ∀ b ∈ data, b < 256) :
    decode_bech32 hrp (bech32String hrp data) = .ok data :=
  decode_encode_bech32_core hrp.toList data h

/-! ### Lemmas: script classification -/

theorem standard_type_pkh (s : List Nat) (p : List Nat) (h : standard_type s = .Pkh p) :
    s = [0x76, 0xa9, 0x14] ++ p ++ [0x88, 0xac] := by
  unfold standard_type at h
  split_ifs at h with h1 h2 h3 h4 h5 <;> simp at h
  obtain ⟨hlen, htake, hdropp⟩ := h1
  rw [← h]
  conv_lhs => rw [← List.take_append_drop 3 s, ← List.take_append_drop 20 (s.drop 3)]
  rw [List.drop_drop, htake]
  norm_num at hdropp ⊢
  rw [hdropp]

theorem standard_type_sh (s : List Nat) (p : List Nat) (h : standard_type s = .Sh p) :
    s = [0xa9, 0x14] ++ p ++ [0x87] := by
  unfold standard_type at h
  split_ifs at h with h1 h2 h3 h4 h5 <;> simp at h
  obtain ⟨hlen, htake, hdropp⟩ := h2
  rw [← h]
  conv_lhs => rw [← List.take_append_drop 2 s, ← List.take_append_drop 20 (s.drop 2)]
  rw [List.drop_drop, htake]
  norm_num at hdropp ⊢
  rw [hdropp]

theorem standard_type_wpkh (s : List Nat) (p : List Nat) (h : standard_type s = .Wpkh p) :
    s = [0x00, 0x14] ++ p := by
  unfold standard_type at h
  split_ifs at h with h1 h2 h3 h4 h5 <;> simp at h
  obtain ⟨hlen, htake⟩ := h3
  rw [← h]
  conv_lhs => rw [← List.take_append_drop 2 s]
  rw [htake]

theorem standard_type_wsh (s : List Nat) (p : List Nat) (h : standard_type s = .Wsh p) :
    s = [0x00, 0x20] ++ p := by
  unfold standard_type at h
  split_ifs at h with h1 h2 h3 h4 h5 <;> simp at h
  obtain ⟨hlen, htake⟩ := h4
  rw [← h]
  conv_lhs => rw [← List.take_append_drop 2 s]
  rw [htake]

/-! ### Lemmas: hex round trip -/

theorem hexDigits_length : hexDigits.length = 16 := by decide

theorem hex_hinv : ∀ v, v < hexDigits.length →
    charIndex hexDigits (hexDigits.getD v '?') = some v := by decide

theorem hexDecodePairs_hexEncode (l : List Nat) (h : ∀ b ∈ l, b < 256) :
    hexDecodePairs (hexEncode l) = some l := by
  induction l with
  | nil => rfl
  | cons b t ih =>
    have hb : b < 256 := h b (by simp)
    show hexDecodePairs (hexDigits.getD (b / 16) '?' :: hexDigits.getD (b % 16) '?' ::
      hexEncode t) = some (b :: t)
    simp only [hexDecodePairs]
    rw [hex_hinv (b / 16) (by rw [hexDigits_length]; omega),
      hex_hinv (b % 16) (by rw [hexDigits_length]; omega),
      ih (fun x hx => h x (by simp [hx]))]
    show some ((16 * (b / 16) + b % 16) :: t) = some (b :: t)
    rw [Nat.div_add_mod]

theorem hexEncode_hexDecodePairs : ∀ l cs, hexDecodePairs cs = some l → hexEncode l = cs := by
  intro l
  induction l with
  | nil =>
    intro cs h
    match cs, h with
    | [], _ => rfl
    | [c], h => exact absurd h (by simp [hexDecodePairs])
    | c1 :: c2 :: rest, h =>
      exfalso
      simp only [hexDecodePairs] at h
      match hc1 : charIndex hexDigits c1, hc2 : charIndex hexDigits c2,
          hr : hexDecodePairs rest with
      | some hi, some lo, some tl2 => rw [hc1, hc2, hr] at h; simp at h
      | none, _, _ => rw [hc1] at h; simp at h
      | some _, none, _ => rw [hc1, hc2] at h; simp at h
      | some _, some _, none => rw [hc1, hc2, hr] at h; simp at h
  | cons v tl ih =>
    intro cs h
    match cs, h with
    | [], h => exact absurd h (by simp [hexDecodePairs])
    | [c], h => exact absurd h (by simp [hexDecodePairs])
    | c1 :: c2 :: rest, h =>
      simp only [hexDecodePairs] at h
      match hc1 : charIndex hexDigits c1, hc2 : charIndex hexDigits c2,
          hr : hexDecodePairs rest with
      | some hi, some lo, some tl2 =>
        rw [hc1, hc2, hr] at h
        simp only [Option.some.injEq, List.cons.injEq] at h
        obtain ⟨hv, htl⟩ := h
        have hhi : hi < 16 := by
          have := charIndex_lt c1 hexDigits hi hc1
          rwa [hexDigits_length] at this
        have hlo : lo < 16 := by
          have := charIndex_lt c2 hexDigits lo hc2
          rwa [hexDigits_length] at this
        show hexDigits.getD (v / 16) '?' :: hexDigits.getD (v % 16) '?' :: hexEncode tl =
          c1 :: c2 :: rest
        have hdiv : v / 16 = hi := by omega
        have hmod : v % 16 = lo := by omega
        rw [hdiv, hmod, charIndex_getD c1 hexDigits hi hc1, charIndex_getD c2 hexDigits lo hc2,
          ih rest (by rw [hr, htl])]
      | none, _, _ => rw [hc1] at h; simp at h
      | some _, none, _ => rw [hc1, hc2] at h; simp at h
      | some _, some _, none => rw [hc1, hc2, hr] at h; simp at h

theorem mk_toList (s : String) : String.mk s.toList = s := rfl

/-! ### Claim theorems -/

/-- C1: the claim states that `decode_address` propagates a failed base58check
or bech32 decode to the caller as an error and never aborts.  The source
instead calls `.unwrap()` on the inner decode and returns a bare script, so a
wrapped string that fails to decode panics: under mainnet parameters the
address `Pkh "hello"` makes the inner base58check decode fail with the
invalid-character condition, and `decode_address` (whose panic is modelled as
`none`) aborts instead of returning that error. -/
theorem C1_decode_address_panics :
    decode_address Main (Address.Pkh "hello") = none ∧
    decode_base58 Main.pkh_version "hello" = .error .InvalidChar := by
  exact ⟨rfl, rfl⟩

/-- C5: for every parameter set, `encode_address` fails with the data-carrier
condition (`NullDataScript`) on every script classified `OpReturn`, whatever
the payload, and with the unclassifiable condition (`UnknownScriptType`) on
every script classified `NonStandard`; no address is produced. -/
theorem C5_op_return_and_nonstandard (P : NetworkParams) (s p : List Nat) :
    (standard_type s = .OpReturn p → encode_address P s = .error .NullDataScript) ∧
    (standard_type s = .NonStandard → encode_address P s = .error .UnknownScriptType) := by
  constructor <;> intro h <;> simp [encode_address, h]

/-- C5 witness: the data-carrier script `6a010203` and the junk script
`0011223344` (from the source's own tests) exercise the two conditions. -/
theorem C5_witness :
    (standard_type [0x6a, 1, 2, 3] = .OpReturn [1, 2, 3] ∧
      encode_address Main [0x6a, 1, 2, 3] = .error .NullDataScript) ∧
    (standard_type [0x00, 0x11, 0x22, 0x33, 0x44] = .NonStandard ∧
      encode_address Main [0x00, 0x11, 0x22, 0x33, 0x44] = .error .UnknownScriptType) :=
  ⟨⟨by decide, (C5_op_return_and_nonstandard Main [0x6a, 1, 2, 3] [1, 2, 3]).1 (by decide)⟩,
   ⟨by decide, (C5_op_return_and_nonstandard Main [0x00, 0x11, 0x22, 0x33, 0x44] []).2
      (by decide)⟩⟩

/-- C8: the three canonical parameter sets `Main`, `Test` and `Sig` are
pairwise distinct in the human-readable prefix and in both legacy version
bytes; in particular no two share both a prefix and a version-byte pair. -/
theorem C8_networks_distinct :
    Main.hrp ≠ Test.hrp ∧ Main.hrp ≠ Sig.hrp ∧ Test.hrp ≠ Sig.hrp ∧
    Main.pkh_version ≠ Test.pkh_version ∧ Main.pkh_version ≠ Sig.pkh_version ∧
    Test.pkh_version ≠ Sig.pkh_version ∧
    Main.sh_version ≠ Test.sh_version ∧ Main.sh_version ≠ Sig.sh_version ∧
    Test.sh_version ≠ Sig.sh_version ∧
    Main ≠ Test ∧ Main ≠ Sig ∧ Test ≠ Sig := by decide

/-- C9: on the decode path the witness variant tag carries no information —
`decode_address` sends `Wpkh s` and `Wsh s` through the identical bech32
branch, so the results agree for every parameter set and every string. -/
theorem C9_wpkh_wsh_decode_agree (P : NetworkParams) (s : String) :
    decode_address P (.Wpkh s) = decode_address P (.Wsh s) := rfl

/-- C10: `reversed` is an involution on every marked digest output and
preserves the byte length, so repeated big-endian display conversions never
corrupt a digest. -/
theorem C10_reversed_involution (n : Nat) (d : MDigest n) :
    d.reversed.reversed = d ∧ d.reversed.val.length = d.val.length := by
  constructor
  · apply Subtype.ext
    show d.val.reverse.reverse = d.val
    exact List.reverse_reverse _
  · show d.val.reverse.length = d.val.length
    exact List.length_reverse _

/-- Concrete 25-byte pay-to-pubkey-hash script
`76a9140e5c3c8d420c7f11e88d76f7b860d471e6517a4488ac` from the source's tests. -/
def pkhScriptLit : List Nat :=
  [0x76, 0xa9, 0x14, 0x0e, 0x5c, 0x3c, 0x8d, 0x42, 0x0c, 0x7f, 0x11, 0xe8, 0x8d, 0x76, 0xf7,
   0xb8, 0x60, 0xd4, 0x71, 0xe6, 0x51, 0x7a, 0x44, 0x88, 0xac]

/-- C2: for every parameter set with `u8` version bytes and every byte script
classified `Pkh`, `Sh`, `Wpkh` or `Wsh`, decoding the encoded address succeeds
and reproduces exactly the canonical template bytes of the classification
(25-byte `DUP HASH160 PUSH_20 <hash> EQUALVERIFY CHECKSIG` for `Pkh`, 23-byte
`HASH160 PUSH_20 <hash> EQUAL` for `Sh`, the witness-program script verbatim
for `Wpkh`/`Wsh`), which coincide with the input script. -/
theorem C2_round_trip (P : NetworkParams) (s : List Nat) (hP : P.Wf)
    (hs : ∀ b ∈ s, b < 256) (hstd : (standard_type s).isAddressKind = true) :
    ((encode_address P s).toOption.bind (decode_address P)) = some s ∧
    canonical_template (standard_type s) = some s := by
  cases hcls : standard_type s with
  | Pkh p =>
    have hs_eq := standard_type_pkh s p hcls
    have hp : ∀ b ∈ p, b < 256 := by
      intro b hb
      apply hs
      rw [hs_eq]
      simp [hb]
    constructor
    · simp only [encode_address, hcls]
      show ((decode_base58 P.pkh_version (encode_base58 P.pkh_version p)).toOption.map
        (fun payload => [0x76, 0xa9, 0x14] ++ payload ++ [0x88, 0xac])) = some s
      rw [decode_encode_base58 P.pkh_version p hp hP.1]
      show some ([0x76, 0xa9, 0x14] ++ p ++ [0x88, 0xac]) = some s
      rw [← hs_eq]
    · show some ([0x76, 0xa9, 0x14] ++ p ++ [0x88, 0xac]) = some s
      rw [← hs_eq]
  | Sh p =>
    have hs_eq := standard_type_sh s p hcls
    have hp : ∀ b ∈ p, b < 256 := by
      intro b hb
      apply hs
      rw [hs_eq]
      simp [hb]
    constructor
    · simp only [encode_address, hcls]
      show ((decode_base58 P.sh_version (encode_base58 P.sh_version p)).toOption.map
        (fun payload => [0xa9, 0x14] ++ payload ++ [0x87])) = some s
      rw [decode_encode_base58 P.sh_version p hp hP.2]
      show some ([0xa9, 0x14] ++ p ++ [0x87]) = some s
      rw [← hs_eq]
    · show some ([0xa9, 0x14] ++ p ++ [0x87]) = some s
      rw [← hs_eq]
  | Wpkh p =>
    have hs_eq := standard_type_wpkh s p hcls
    constructor
    · simp only [encode_address, hcls]
      show (decode_bech32 P.hrp (bech32String P.hrp s)).toOption = some s
      rw [decode_encode_bech32 P.hrp s hs]
      rfl
    · show some ([0x00, 0x14] ++ p) = some s
      rw [← hs_eq]
  | Wsh p =>
    have hs_eq := standard_type_wsh s p hcls
    constructor
    · simp only [encode_address, hcls]
      show (decode_bech32 P.hrp (bech32String P.hrp s)).toOption = some s
      rw [decode_encode_bech32 P.hrp s hs]
      rfl
    · show some ([0x00, 0x20] ++ p) = some s
      rw [← hs_eq]
  | OpReturn p => rw [hcls] at hstd; exact absurd hstd (by simp [ScriptType.isAddressKind])
  | NonStandard => rw [hcls] at hstd; exact absurd hstd (by simp [ScriptType.isAddressKind])

/-- C2 witness: the round trip at the mainnet parameters and the concrete
25-byte pay-to-pubkey-hash script of the source's tests. -/
theorem C2_witness :
    (Main.Wf ∧ (∀ b ∈ pkhScriptLit, b < 256) ∧
      (standard_type pkhScriptLit).isAddressKind = true) ∧
    ((encode_address Main pkhScriptLit).toOption.bind (decode_address Main)) = some pkhScriptLit ∧
    canonical_template (standard_type pkhScriptLit) = some pkhScriptLit :=
  ⟨⟨by decide, by decide, by decide⟩,
   C2_round_trip Main pkhScriptLit (by decide) (by decide) (by decide)⟩

set_option maxRecDepth 40000 in
/-- C3 counterexample: the claim says a bech32 decode of 20 bytes yields
`Address::Wpkh`, but the source dispatches on the full decoded buffer (witness
version byte + push-length byte + program), so a string decoding to exactly 20
bytes is rejected as unclassifiable: this concrete mainnet-prefixed string
bech32-decodes to 20 bytes, yet `string_to_address` fails. -/
theorem C3_counterexample :
    (decode_bech32 Main.hrp "bc1qqfpzyg3zyg3zyg3zyg3zyg3zyg3zyg345vjt7").toOption.map
      List.length = some 20 ∧
    string_to_address Main "bc1qqfpzyg3zyg3zyg3zyg3zyg3zyg3zyg345vjt7" =
      .error .UnknownScriptType := by
  exact ⟨rfl, rfl⟩

/-- C3 amended: when the text starts with the network prefix,
`string_to_address` is decided entirely by the bech32 decode attempt (made
before any base58 attempt): a decode failure propagates as its own error, a
decoded length of 22 bytes (version byte + push-length byte + 20-byte program)
yields `Wpkh`, 34 bytes yields `Wsh`, and any other decoded length fails as
unclassifiable. -/
theorem C3_bech32_dispatch (P : NetworkParams) (s : String)
    (hpre : listStartsWith P.hrp.toList s.toList = true) :
    string_to_address P s =
      match decode_bech32 P.hrp s with
      | .error e => .error e
      | .ok r =>
        if r.length = 22 then .ok (.Wpkh s)
        else if r.length = 34 then .ok (.Wsh s)
        else .error .UnknownScriptType := by
  unfold string_to_address
  rw [if_pos hpre]

set_option maxRecDepth 40000 in
/-- C3 witness: a concrete mainnet witness-pubkey-hash address string
exercises the prefix-matching branch and the length-22 dispatch. -/
theorem C3_witness :
    listStartsWith Main.hrp.toList "bc1qq2ph79psvwm23pmg2jy7v9py8gmv9kszx4shhdvl6".toList
      = true ∧
    string_to_address Main "bc1qq2ph79psvwm23pmg2jy7v9py8gmv9kszx4shhdvl6" =
      match decode_bech32 Main.hrp "bc1qq2ph79psvwm23pmg2jy7v9py8gmv9kszx4shhdvl6" with
      | .error e => .error e
      | .ok r =>
        if r.length = 22 then .ok (.Wpkh "bc1qq2ph79psvwm23pmg2jy7v9py8gmv9kszx4shhdvl6")
        else if r.length = 34 then .ok (.Wsh "bc1qq2ph79psvwm23pmg2jy7v9py8gmv9kszx4shhdvl6")
        else .error .UnknownScriptType :=
  ⟨rfl, C3_bech32_dispatch Main "bc1qq2ph79psvwm23pmg2jy7v9py8gmv9kszx4shhdvl6" rfl⟩

/-- C4: whenever `string_to_address` succeeds, the returned address variant
stores the input string itself, character for character — the source wraps the
owned copy of its argument with no case-folding or other normalization. -/
theorem C4_stored_string (P : NetworkParams) (s : String) (a : Address)
    (h : string_to_address P s = .ok a) : a.as_string = s := by
  unfold string_to_address at h
  by_cases hb : listStartsWith P.hrp.toList s.toList = true
  · rw [if_pos hb] at h
    match hd : decode_bech32 P.hrp s with
    | .error e => rw [hd] at h; exact Except.noConfusion h
    | .ok r =>
      rw [hd] at h
      replace h : (if r.length = 22 then Except.ok (Address.Wpkh s)
        else if r.length = 34 then Except.ok (Address.Wsh s)
        else Except.error EncodingError.UnknownScriptType) = Except.ok a := h
      by_cases h22 : r.length = 22
      · rw [if_pos h22] at h
        injection h with h2
        rw [← h2]
        rfl
      · rw [if_neg h22] at h
        by_cases h34 : r.length = 34
        · rw [if_pos h34] at h
          injection h with h2
          rw [← h2]
          rfl
        · rw [if_neg h34] at h
          exact Except.noConfusion h
  · rw [if_neg hb] at h
    by_cases hpkh : exceptIsOk (decode_base58 P.pkh_version s) = true
    · rw [if_pos hpkh] at h
      injection h with h2
      rw [← h2]
      rfl
    · rw [if_neg hpkh] at h
      by_cases hsh : exceptIsOk (decode_base58 P.sh_version s) = true
      · rw [if_pos hsh] at h
        injection h with h2
        rw [← h2]
        rfl
      · rw [if_neg hsh] at h
        exact Except.noConfusion h

set_option maxRecDepth 200000 in
/-- C4 witness: the mainnet pay-to-pubkey-hash address of the source's tests
parses successfully and stores exactly itself. -/
theorem C4_witness :
    string_to_address Main "12JvxPk4mT4PKMVHuHc1aQGBZpotQWQwF6" =
      .ok (Address.Pkh "12JvxPk4mT4PKMVHuHc1aQGBZpotQWQwF6") ∧
    (Address.Pkh "12JvxPk4mT4PKMVHuHc1aQGBZpotQWQwF6").as_string =
      "12JvxPk4mT4PKMVHuHc1aQGBZpotQWQwF6" :=
  ⟨by rfl, C4_stored_string Main "12JvxPk4mT4PKMVHuHc1aQGBZpotQWQwF6"
    (Address.Pkh "12JvxPk4mT4PKMVHuHc1aQGBZpotQWQwF6") (by rfl)⟩

set_option maxRecDepth 200000 in
/-- C6: the script `76a9140e5c3c8d420c7f11e88d76f7b860d471e6517a4488ac`
encodes under the mainnet parameters (prefix `bc`, versions `0x00`/`0x05`) to
exactly `Address::Pkh "12JvxPk4mT4PKMVHuHc1aQGBZpotQWQwF6"`. -/
theorem C6_mainnet_literal :
    encode_address Main pkhScriptLit =
      .ok (.Pkh "12JvxPk4mT4PKMVHuHc1aQGBZpotQWQwF6") := by
  rfl

/-- C7: on every marked digest output size, `from_be_hex` is hex-decode
followed by byte-reversal and `to_be_hex` is byte-reversal followed by
hex-encode, and the two are exact inverses: decoding the rendered big-endian
hex of a digest returns that digest, and rendering the digest decoded from a
valid big-endian hex string returns that string. -/
theorem C7_be_hex_inverses (n : Nat) (d : MDigest n) (s : String) :
    from_be_hex n (to_be_hex d) = some d ∧
    (from_be_hex n s = some d → to_be_hex d = s) ∧
    from_be_hex n s = (deserialize_hex n s).map MDigest.reversed ∧
    to_be_hex d = serialize_hex d.reversed := by
  refine ⟨?_, ?_, rfl, rfl⟩
  · show (deserialize_hex n (String.mk (hexEncode d.val.reverse))).map MDigest.reversed = some d
    unfold deserialize_hex
    rw [toList_mk]
    simp only [hexDecodePairs_hexEncode _
      (fun b hb => d.property.2 b (List.mem_reverse.mp hb))]
    rw [dif_pos ⟨by rw [List.length_reverse]; exact d.property.1,
      fun b hb => d.property.2 b (List.mem_reverse.mp hb)⟩]
    simp only [Option.map_some', Option.some.injEq]
    apply Subtype.ext
    show d.val.reverse.reverse = d.val
    exact List.reverse_reverse _
  · intro h
    unfold from_be_hex deserialize_hex at h
    match hdec : hexDecodePairs s.toList with
    | none =>
      simp only [hdec, Option.map_none'] at h
      exact Option.noConfusion h
    | some l =>
      simp only [hdec] at h
      by_cases hcond : l.length = n ∧ ∀ b ∈ l, b < 256
      · rw [dif_pos hcond] at h
        simp only [Option.map_some', Option.some.injEq] at h
        unfold to_be_hex serialize_hex
        have hval : (MDigest.reversed d).val = l := by
          rw [← h]
          show (⟨l, hcond⟩ : MDigest n).val.reverse.reverse = l
          exact List.reverse_reverse l
        rw [hval, hexEncode_hexDecodePairs l s.toList hdec, mk_toList]
      · rw [dif_neg hcond] at h
        exact Option.noConfusion h

/-- Concrete 32-byte digest value for the C7 witness: the bytes 31 down to
0, whose big-endian hex rendering is the ascending byte sequence. -/
def c7Digest : MDigest 32 := ⟨[0x1f, 0x1e, 0x1d, 0x1c, 0x1b, 0x1a, 0x19, 0x18, 0x17, 0x16, 0x15, 0x14, 0x13, 0x12, 0x11, 0x10, 0x0f, 0x0e, 0x0d, 0x0c, 0x0b, 0x0a, 0x09, 0x08, 0x07, 0x06, 0x05, 0x04, 0x03, 0x02, 0x01, 0x00], by decide⟩

set_option maxRecDepth 40000 in
/-- C7 witness: the 64-character hex string of the bytes 0 to 31 decodes to
`c7Digest`, and rendering `c7Digest` back to big-endian hex reproduces it. -/
theorem C7_witness :
    from_be_hex 32 "000102030405060708090a0b0c0d0e0f101112131415161718191a1b1c1d1e1f" = some c7Digest ∧
    to_be_hex c7Digest = "000102030405060708090a0b0c0d0e0f101112131415161718191a1b1c1d1e1f" :=
  ⟨by rfl, (C7_be_hex_inverses 32 c7Digest "000102030405060708090a0b0c0d0e0f101112131415161718191a1b1c1d1e1f").2.1 (by rfl)⟩

end Bitcoins
